import Mathlib

/-!
Shallow embedding of the `views` package (read-only view accessors for
slices and maps) and of the platform-path helpers' consumers.

Go values are modelled as follows:
- a Go slice `[]T` is `Option (List T)`: `none` is the nil slice,
  `some l` is a non-nil slice with elements `l` (so nil and empty are
  distinct, as in Go);
- a Go `int` index is `Int` (the claims do not involve 64-bit overflow);
- a Go panic (index out of range) is `Option.none` of the read;
- `json.Marshal` / `json.Unmarshal` on slices are modelled by the
  `Payload` wire type below, following the documented encoding/json
  semantics for slices: a nil slice marshals to the JSON literal `null`,
  a non-nil slice marshals to a JSON array; unmarshalling `null` into a
  slice sets it to nil, unmarshalling an array replaces the slice, and
  unmarshalling zero bytes is a syntax error;
- a method that mutates its receiver and returns `error` is modelled as
  a function returning the new receiver state paired with
  `Option String` (`none` = nil error, `some msg` = the error message).
-/

namespace Views

/-- A Go slice `[]T`: `none` models the nil slice, `some l` a non-nil
slice whose elements are `l`. -/
abbrev GoSlice (T : Type) := Option (List T)

/-- The element list of a Go slice (`len(nil) = 0` in Go, so the nil
slice reads as the empty list). -/
def GoSlice.toList : GoSlice T → List T
  | none => []
  | some l => l

/-- Go `len(s)` for a slice. -/
def GoSlice.len (s : GoSlice T) : Nat := s.toList.length

/-- The bytes handed to `UnmarshalJSON` / produced by `MarshalJSON`,
restricted to the shapes that matter for a slice: a zero-length byte
string, the JSON literal `null`, or a JSON array of `T` values. -/
inductive Payload (T : Type) where
  | empty : Payload T
  | null : Payload T
  | arr : List T → Payload T
deriving DecidableEq

/-- Go `len(b) == 0` on the payload bytes. -/
def Payload.isEmptyBytes : Payload T → Bool
  | .empty => true
  | _ => false

/-- `json.Marshal` of a Go slice: nil marshals to `null`, a non-nil
slice marshals to a JSON array of its elements.  (Marshal can only fail
on unsupported element types, which the claims do not exercise, so the
model is total.) -/
def jsonMarshal : GoSlice T → Payload T
  | none => .null
  | some l => .arr l

/-- `json.Unmarshal(b, x)` for `x : *[]T`, returning the new value of
`*x` and the returned error: zero bytes is the "unexpected end of JSON
input" syntax error, `null` sets the slice to nil, an array replaces
the slice with the decoded elements. -/
def jsonUnmarshal (b : Payload T) (x : GoSlice T) : GoSlice T × Option String :=
  match b with
  | .empty => (x, some "unexpected end of JSON input")
  | .null => (none, none)
  | .arr l => (some l, none)

/-- `func unmarshalJSON[T any](b []byte, x *[]T) error`: rejects a
non-nil `*x` with "already initialized", treats empty input as a
successful no-op, and otherwise delegates to `json.Unmarshal`.
Returns the new value of `*x` paired with the error. -/
def unmarshalJSON (b : Payload T) (x : GoSlice T) : GoSlice T × Option String :=
  if x.isSome then (x, some "already initialized")
  else if b.isEmptyBytes then (x, none)
  else jsonUnmarshal b x

/-- `type Slice[T any] struct { ж []T }`: a read-only accessor for a
slice.  The backing field is written `zh` here for the source's `ж`. -/
structure Slice (T : Type) where
  zh : GoSlice T

/-- `func SliceOf[T any](x []T) Slice[T]`. -/
def SliceOf (x : GoSlice T) : Slice T := ⟨x⟩

/-- `func (v Slice[T]) MarshalJSON() ([]byte, error)`:
`json.Marshal(v.zh)`. -/
def Slice.MarshalJSON (v : Slice T) : Payload T := jsonMarshal v.zh

/-- `func (v *Slice[T]) UnmarshalJSON(b []byte) error`:
`unmarshalJSON(b, &v.zh)`; returns the updated view and the error. -/
def Slice.UnmarshalJSON (v : Slice T) (b : Payload T) : Slice T × Option String :=
  let r := unmarshalJSON b v.zh
  (⟨r.1⟩, r.2)

/-- `func (v Slice[T]) IsNil() bool { return v.zh == nil }`. -/
def Slice.IsNil (v : Slice T) : Bool := v.zh.isNone

/-- `func (v Slice[T]) Len() int { return len(v.zh) }`. -/
def Slice.Len (v : Slice T) : Nat := v.zh.len

/-- `func (v Slice[T]) At(i int) T { return v.zh[i] }`: the Go index
expression panics when `i` is outside `[0, len)`; the panic is modelled
as `none`. -/
def Slice.At (v : Slice T) (i : Int) : Option T :=
  if 0 ≤ i ∧ i < (v.Len : Int) then v.zh.toList.get? i.toNat else none

/-- The loop of `Slice.IndexFunc`: `for i := 0; i < v.Len(); i++ { if
f(v.At(i)) { return i } }; return -1`, recursing over the remaining
elements with `i` the index of the first of them. -/
def indexFuncFrom (f : T → Bool) : List T → Nat → Int
  | [], _ => -1
  | x :: rest, i => if f x then (i : Int) else indexFuncFrom f rest (i + 1)

/-- `func (v Slice[T]) IndexFunc(f func(T) bool) int`: first index whose
element satisfies `f`, else `-1`. -/
def Slice.IndexFunc (v : Slice T) (f : T → Bool) : Int :=
  indexFuncFrom f v.zh.toList 0

/-- The loop of `Slice.ContainsFunc`: scans the elements in order and
returns true at the first satisfying one. -/
def containsFuncList (f : T → Bool) : List T → Bool
  | [] => false
  | x :: rest => if f x then true else containsFuncList f rest

/-- `func (v Slice[T]) ContainsFunc(f func(T) bool) bool`. -/
def Slice.ContainsFunc (v : Slice T) (f : T → Bool) : Bool :=
  containsFuncList f v.zh.toList

/-- A Go map `map[K]V`: `none` is the nil map; `some entries` is a
non-nil map whose entries, listed in the (unspecified) order a `range`
statement would visit them, are `entries`.  Keys are unique in a Go
map; claims quantify over all entry orders where order matters. -/
abbrev GoMap (K V : Type) := Option (List (K × V))

/-- The entry list of a Go map in its iteration order (`range` over a
nil map visits nothing). -/
def GoMap.entries : GoMap K V → List (K × V)
  | none => []
  | some l => l

/-- Go `v, ok := m[k]`: the value stored for `k` and whether `k` is
present; a missing key yields the value type's zero value, modelled by
`default`. -/
def GoMap.access [DecidableEq K] [Inhabited V] (m : GoMap K V) (k : K) : V × Bool :=
  match m.entries.find? (fun e => e.1 = k) with
  | some e => (e.2, true)
  | none => (default, false)

/-- `type Map[K comparable, V any] struct { ж map[K]V }` (backing field
written `zh` for the source's `ж`). -/
structure Map (K V : Type) where
  zh : GoMap K V

/-- `func MapOf[K comparable, V comparable](m map[K]V) Map[K, V]`. -/
def MapOf (m : GoMap K V) : Map K V := ⟨m⟩

/-- `func (m Map[K, V]) Has(k K) bool`. -/
def Map.Has [DecidableEq K] [Inhabited V] (m : Map K V) (k : K) : Bool :=
  (m.zh.access k).2

/-- `func (m Map[K, V]) IsNil() bool`. -/
def Map.IsNil (m : Map K V) : Bool := m.zh.isNone

/-- `func (m Map[K, V]) Len() int`. -/
def Map.Len (m : Map K V) : Nat := m.zh.entries.length

/-- `func (m Map[K, V]) Get(k K) V { return m.ж[k] }`. -/
def Map.Get [DecidableEq K] [Inhabited V] (m : Map K V) (k : K) : V :=
  (m.zh.access k).1

/-- `func (m Map[K, V]) GetOk(k K) (V, bool)`. -/
def Map.GetOk [DecidableEq K] [Inhabited V] (m : Map K V) (k : K) : V × Bool :=
  m.zh.access k

/-- The visitor-invocation trace of `for k, v := range entries { if
!f(k, v) { return } }`: the entries `f` is invoked on, in order,
including the one whose `false` return stops the loop. -/
def rangeVisits (f : K → V → Bool) : List (K × V) → List (K × V)
  | [] => []
  | e :: rest => if f e.1 e.2 then e :: rangeVisits f rest else [e]

/-- `func (m Map[K, V]) Range(f MapRangeFn[K, V])`: `Range` returns
nothing, so its observable behaviour is the sequence of visitor calls
it makes; the model returns that trace. -/
def Map.Range (m : Map K V) (f : K → V → Bool) : List (K × V) :=
  rangeVisits f m.zh.entries

/-- `type MapFn[K comparable, T any, V any] struct { ж map[K]T; wrapv
func(T) V }` (backing field written `zh` for the source's `ж`). -/
structure MapFn (K T V : Type) where
  zh : GoMap K T
  wrapv : T → V

/-- `func MapFnOf[K comparable, T any, V any](m map[K]T, f func(T) V)
MapFn[K, T, V]`. -/
def MapFnOf (m : GoMap K T) (f : T → V) : MapFn K T V := ⟨m, f⟩

/-- `func (m MapFn[K, T, V]) Has(k K) bool`. -/
def MapFn.Has [DecidableEq K] [Inhabited T] (m : MapFn K T V) (k : K) : Bool :=
  (m.zh.access k).2

/-- `func (m MapFn[K, T, V]) Get(k K) V { return m.wrapv(m.ж[k]) }`. -/
def MapFn.Get [DecidableEq K] [Inhabited T] (m : MapFn K T V) (k : K) : V :=
  m.wrapv (m.zh.access k).1

/-- `func (m MapFn[K, T, V]) IsNil() bool`. -/
def MapFn.IsNil (m : MapFn K T V) : Bool := m.zh.isNone

/-- `func (m MapFn[K, T, V]) Len() int`. -/
def MapFn.Len (m : MapFn K T V) : Nat := m.zh.entries.length

/-- `func (m MapFn[K, T, V]) GetOk(k K) (V, bool)`: `v, ok := m.ж[k];
return m.wrapv(v), ok`. -/
def MapFn.GetOk [DecidableEq K] [Inhabited T] (m : MapFn K T V) (k : K) : V × Bool :=
  let r := m.zh.access k
  (m.wrapv r.1, r.2)

/-- `func (m MapFn[K, T, V]) Range(f MapRangeFn[K, V])`, as the
visitor-invocation trace (the wrapped values `f` is called on). -/
def MapFn.Range (m : MapFn K T V) (f : K → V → Bool) : List (K × V) :=
  rangeVisits f (m.zh.entries.map (fun e => (e.1, m.wrapv e.2)))

/-!
Memory model for the aliasing behaviour of `Slice.AppendTo` /
`Slice.AsSlice`.  The value model above cannot express "the returned
slice shares no storage with the backing slice", so Go slices are here
refined to headers into a heap of backing arrays, and `append` gets its
documented Go semantics: it writes in place when the destination has
spare capacity and otherwise copies into a freshly allocated array.
-/

/-- The heap of allocated backing arrays, indexed by allocation id. -/
abbrev Heap (T : Type) := List (List T)

/-- A Go slice header: backing array id, start offset, length and
capacity. -/
structure SliceRef where
  arr : Nat
  off : Nat
  len : Nat
  cap : Nat
deriving DecidableEq

/-- The backing array with id `a` (absent ids read as empty). -/
def Heap.arrAt (h : Heap T) (a : Nat) : List T := h.getD a []

/-- The elements a slice header denotes in a heap. -/
def readSlice (h : Heap T) (s : SliceRef) : List T :=
  ((h.arrAt s.arr).drop s.off).take s.len

/-- Well-formedness of a slice header in a heap: the array exists and
`off + cap` fits inside it, with `len ≤ cap` (Go's slice invariant). -/
def SliceRef.wf (h : Heap T) (s : SliceRef) : Prop :=
  s.arr < h.length ∧ s.len ≤ s.cap ∧ s.off + s.cap ≤ (h.arrAt s.arr).length

instance (h : Heap T) (s : SliceRef) : Decidable (s.wf h) := by
  unfold SliceRef.wf; infer_instance

/-- Writing `xs` into a list starting at position `pos` (the in-place
effect of `append` or of an element assignment). -/
def listOverwrite (l : List T) (pos : Nat) (xs : List T) : List T :=
  l.take pos ++ xs ++ l.drop (pos + xs.length)

/-- Go `append(dst, xs...)`: writes into `dst`'s spare capacity when
`len(dst) + len(xs) ≤ cap(dst)`, and otherwise copies `dst`'s elements
followed by `xs` into a freshly allocated array. -/
def goAppend (h : Heap T) (dst : SliceRef) (xs : List T) : Heap T × SliceRef :=
  if dst.len + xs.length ≤ dst.cap then
    (h.set dst.arr (listOverwrite (h.arrAt dst.arr) (dst.off + dst.len) xs),
     { dst with len := dst.len + xs.length })
  else
    (h ++ [readSlice h dst ++ xs],
     ⟨h.length, 0, dst.len + xs.length, dst.len + xs.length⟩)

/-- `func (v Slice[T]) AppendTo(dst []T) []T { return append(dst,
v.ж...) }` in the memory model. -/
def SliceRef.AppendTo (h : Heap T) (v dst : SliceRef) : Heap T × SliceRef :=
  goAppend h dst (readSlice h v)

/-- The Go full slice expression `v.ж[:0:0]`: same array and offset,
length and capacity zero. -/
def SliceRef.truncZero (v : SliceRef) : SliceRef := { v with len := 0, cap := 0 }

/-- `func (v Slice[T]) AsSlice() []T { return v.AppendTo(v.ж[:0:0]) }`
in the memory model. -/
def SliceRef.AsSlice (h : Heap T) (v : SliceRef) : Heap T × SliceRef :=
  SliceRef.AppendTo h v v.truncZero

/-- A caller mutating element `i` of a slice it holds (`s[i] = x`); an
out-of-range index panics in Go, modelled as leaving the heap
unchanged. -/
def setElem (h : Heap T) (s : SliceRef) (i : Nat) (x : T) : Heap T :=
  if i < s.len then h.set s.arr (listOverwrite (h.arrAt s.arr) (s.off + i) [x]) else h

/-!  Theorems for the spec claims. -/

/-- C1: encoding a view of any backing slice `C` with `MarshalJSON` and
decoding the produced bytes with `UnmarshalJSON` into a freshly
constructed view whose backing slice is nil succeeds (nil error) and
yields a view whose backing slice equals `C`. -/
theorem marshal_unmarshal_roundtrip (T : Type) (C : GoSlice T) :
    (SliceOf (T := T) none).UnmarshalJSON ((SliceOf C).MarshalJSON) =
      (⟨C⟩, none) := by
  cases C <;> rfl

/-- C2: `UnmarshalJSON` on a view whose backing slice is non-nil fails
with "already initialized" for every payload and leaves the backing
slice unchanged; in particular a second decode into a view populated by
a first successful decode of a JSON array fails the same way. -/
theorem unmarshal_already_initialized (T : Type) (v : Slice T) (l : List T)
    (hv : v.zh = some l) (b : Payload T) (C : List T) :
    v.UnmarshalJSON b = (v, some "already initialized")
    ∧ (((SliceOf (T := T) none).UnmarshalJSON (Payload.arr C)).1.UnmarshalJSON b =
         (⟨some C⟩, some "already initialized")) := by
  cases v
  cases hv
  exact ⟨rfl, rfl⟩

/-- C2 witness at a concrete input. -/
theorem unmarshal_already_initialized_witness :
    (Slice.mk (some [1]) : Slice Nat).zh = some [1]
    ∧ ((Slice.mk (some [1]) : Slice Nat).UnmarshalJSON (Payload.arr [2]) =
          (⟨some [1]⟩, some "already initialized")
        ∧ (((SliceOf (T := Nat) none).UnmarshalJSON (Payload.arr [3])).1.UnmarshalJSON
             (Payload.arr [2]) = (⟨some [3]⟩, some "already initialized"))) :=
  ⟨rfl, unmarshal_already_initialized Nat ⟨some [1]⟩ [1] rfl (Payload.arr [2]) [3]⟩

/-- C3 counterexample: decoding an empty payload into a view whose
backing slice is non-nil is not a successful no-op — the source checks
`*x != nil` before `len(b) == 0`, so it returns the "already
initialized" error. -/
theorem unmarshal_empty_not_always_noop :
    ((Slice.mk (some [1]) : Slice Nat).UnmarshalJSON Payload.empty).2 ≠ none := by
  intro h
  simp [Slice.UnmarshalJSON, unmarshalJSON] at h

/-- C3 amended: an empty payload always leaves the backing slice
unchanged, and it succeeds exactly when the backing slice is nil;
on a non-nil backing slice it fails with "already initialized". -/
theorem unmarshal_empty_noop_iff_nil (T : Type) (v : Slice T) :
    (v.UnmarshalJSON Payload.empty).1 = v
    ∧ (v.UnmarshalJSON Payload.empty).2 =
        (if v.zh.isSome then some "already initialized" else none) := by
  obtain ⟨x⟩ := v
  cases x <;> exact ⟨rfl, rfl⟩

/-- C4: `At(i)` returns the element at index `i` of the backing slice
when `0 ≤ i < Len()`, and faults (index-out-of-range, modelled as
`none`) exactly when `i` is outside `[0, Len())`; under the in-range
precondition the fault branch is unreachable (`At i` is `some`). -/
theorem slice_at_spec (T : Type) (v : Slice T) (i : Int) :
    (∀ (_h0 : 0 ≤ i) (_h1 : i < (v.Len : Int)),
        v.At i = v.zh.toList.get? i.toNat ∧ (v.At i).isSome = true)
    ∧ (v.At i = none ↔ ¬ (0 ≤ i ∧ i < (v.Len : Int))) := by
  constructor
  · intro h0 h1
    have hc : 0 ≤ i ∧ i < (v.Len : Int) := ⟨h0, h1⟩
    have hlt : i.toNat < v.zh.toList.length := by
      have : v.Len = v.zh.toList.length := rfl
      omega
    refine ⟨if_pos hc, ?_⟩
    rw [Slice.At, if_pos hc, List.get?_eq_get hlt]
    rfl
  · constructor
    · intro hnone hc
      have hlt : i.toNat < v.zh.toList.length := by
        have : v.Len = v.zh.toList.length := rfl
        omega
      rw [Slice.At, if_pos hc, List.get?_eq_get hlt] at hnone
      exact Option.noConfusion hnone
    · intro hc
      exact if_neg hc

/-- C4 witness at a concrete input. -/
theorem slice_at_spec_witness :
    (Slice.mk (some [5, 6]) : Slice Nat).At 1 = [5, 6].get? (Int.toNat 1)
    ∧ ((Slice.mk (some [5, 6]) : Slice Nat).At 1).isSome = true :=
  (slice_at_spec Nat ⟨some [5, 6]⟩ 1).1 (by decide) (by decide)

/-- C5: a view over a nil backing slice has `IsNil() = true`; a view
over an empty non-nil backing slice has `IsNil() = false` and
`Len() = 0` — nil and empty are distinct and queryable. -/
theorem nil_and_empty_distinct (T : Type) :
    (SliceOf (none : GoSlice T)).IsNil = true
    ∧ (SliceOf (some ([] : List T))).IsNil = false
    ∧ (SliceOf (some ([] : List T))).Len = 0 :=
  ⟨rfl, rfl, rfl⟩

/-- A missing key reads as the zero value: if the presence bit of a Go
map access is false, the value part is `default`. -/
theorem GoMap.access_missing {K V : Type} [DecidableEq K] [Inhabited V]
    (m : GoMap K V) (k : K) (h : (m.access k).2 = false) :
    m.access k = (default, false) := by
  cases hfind : m.entries.find? (fun e => e.1 = k) with
  | none => simp [GoMap.access, hfind]
  | some e => simp [GoMap.access, hfind] at h

/-- C7: the transforming view's `Get(k)` is the conversion function
applied to the Go map read `m.ж[k]`; in particular, when `k` is absent
(`ok` bit false) the conversion function is applied to the value type's
zero value rather than skipped. -/
theorem mapfn_get_applies_wrapv (K T V : Type) [DecidableEq K] [Inhabited T]
    (M : GoMap K T) (f : T → V) (k : K) :
    (MapFnOf M f).Get k = f (M.access k).1
    ∧ ((M.access k).2 = false → (MapFnOf M f).Get k = f default) := by
  refine ⟨rfl, fun h => ?_⟩
  show f (M.access k).1 = f default
  rw [GoMap.access_missing M k h]

/-- C7 witness at a concrete input (key 2 is absent from the map). -/
theorem mapfn_get_applies_wrapv_witness :
    ((MapFnOf (some [(1, 10)]) (fun t => t + 1) : MapFn Nat Nat Nat).Get 2 =
        (fun t => t + 1) (GoMap.access (some [(1, 10)] : GoMap Nat Nat) 2).1)
    ∧ (GoMap.access (some [(1, 10)] : GoMap Nat Nat) 2).2 = false
    ∧ (MapFnOf (some [(1, 10)]) (fun t => t + 1) : MapFn Nat Nat Nat).Get 2 =
        (fun t => t + 1) default :=
  ⟨(mapfn_get_applies_wrapv Nat Nat Nat (some [(1, 10)]) (fun t => t + 1) 2).1,
   by decide,
   (mapfn_get_applies_wrapv Nat Nat Nat (some [(1, 10)]) (fun t => t + 1) 2).2 (by decide)⟩

/-- C8: `Map.Range` with a visitor that returns the stop signal on its
first invocation visits exactly one entry on a map of size at least 2,
whichever order (any permutation of the entries) the range statement
uses; entries after the stop are never visited (fewer entries are
visited than the map holds). -/
theorem range_stop_first_visits_one (K V : Type) (m : Map K V) (f : K → V → Bool)
    (hlen : 2 ≤ m.Len) (hf : ∀ k v, f k v = false) :
    (∀ order : List (K × V), order.Perm m.zh.entries →
        (rangeVisits f order).length = 1)
    ∧ (m.Range f).length = 1 ∧ (m.Range f).length < m.Len := by
  have key : ∀ order : List (K × V), order.Perm m.zh.entries →
      (rangeVisits f order).length = 1 := by
    intro order hperm
    have hlen' : 2 ≤ order.length := by
      rw [hperm.length_eq]; exact hlen
    match order with
    | [] => simp at hlen'
    | e :: rest =>
      show (rangeVisits f (e :: rest)).length = 1
      rw [rangeVisits, hf e.1 e.2]
      rfl
  have hr : (m.Range f).length = 1 := key m.zh.entries (List.Perm.refl _)
  exact ⟨key, hr, by omega⟩

/-- C8 witness at a concrete input. -/
theorem range_stop_first_visits_one_witness :
    2 ≤ (MapOf (some [(1, 10), (2, 20)]) : Map Nat Nat).Len
    ∧ ((MapOf (some [(1, 10), (2, 20)]) : Map Nat Nat).Range
         (fun _ _ => false)).length = 1 :=
  ⟨by decide,
   (range_stop_first_visits_one Nat Nat (MapOf (some [(1, 10), (2, 20)]))
      (fun _ _ => false) (by decide) (fun _ _ => rfl)).2.1⟩

/-- C9: the transforming view's `GetOk(k)` on a key absent from the
backing map returns the conversion function applied to the value type's
zero value, paired with `false` — the conversion function runs even for
missing keys. -/
theorem mapfn_getok_missing (K T V : Type) [DecidableEq K] [Inhabited T]
    (m : MapFn K T V) (k : K) (h : (m.zh.access k).2 = false) :
    m.GetOk k = (m.wrapv default, false) := by
  show (m.wrapv (m.zh.access k).1, (m.zh.access k).2) = (m.wrapv default, false)
  rw [GoMap.access_missing m.zh k h]

/-- C9 witness at a concrete input (key 5 is absent from the map). -/
theorem mapfn_getok_missing_witness :
    ((MapFnOf (some [(1, 10)]) (fun t => t * 2) : MapFn Nat Nat Nat).zh.access 5).2 = false
    ∧ (MapFnOf (some [(1, 10)]) (fun t => t * 2) : MapFn Nat Nat Nat).GetOk 5 =
        ((fun t => t * 2) (default : Nat), false) :=
  ⟨by decide,
   mapfn_getok_missing Nat Nat Nat (MapFnOf (some [(1, 10)]) (fun t => t * 2)) 5 (by decide)⟩

/-- The `IndexFunc` loop starting at counter `i`: its result is `-1` or
`i` plus an offset `n` into the remaining elements; `-1` happens exactly
when no element satisfies `f` (the `ContainsFunc` loop returns false);
and an offset result points at the first satisfying element. -/
theorem indexFuncFrom_spec (f : T → Bool) (l : List T) : ∀ i : Nat,
    (indexFuncFrom f l i = -1 ∨ ∃ n : Nat, indexFuncFrom f l i = ((i + n : Nat) : Int))
    ∧ (indexFuncFrom f l i = -1 ↔ containsFuncList f l = false)
    ∧ (∀ n : Nat, indexFuncFrom f l i = ((i + n : Nat) : Int) →
        (∃ t, l.get? n = some t ∧ f t = true)
        ∧ ∀ j, j < n → ∃ t, l.get? j = some t ∧ f t = false) := by
  induction l with
  | nil =>
    intro i
    refine ⟨Or.inl rfl, by simp [indexFuncFrom, containsFuncList], ?_⟩
    intro n h
    rw [indexFuncFrom] at h
    exfalso; omega
  | cons x rest ih =>
    intro i
    cases hfx : f x with
    | true =>
      have hval : indexFuncFrom f (x :: rest) i = (i : Int) := by
        rw [indexFuncFrom, hfx]; rfl
      refine ⟨Or.inr ⟨0, by rw [hval]; omega⟩, ?_, ?_⟩
      · rw [hval]
        constructor
        · intro h; exfalso; omega
        · intro h; rw [containsFuncList, hfx] at h; exact absurd h (by simp)
      · intro n h
        rw [hval] at h
        have hn : n = 0 := by omega
        subst hn
        exact ⟨⟨x, rfl, hfx⟩, fun j hj => absurd hj (by omega)⟩
    | false =>
      have hval : indexFuncFrom f (x :: rest) i = indexFuncFrom f rest (i + 1) := by
        rw [indexFuncFrom, hfx]; rfl
      have hcont : containsFuncList f (x :: rest) = containsFuncList f rest := by
        rw [containsFuncList, hfx]; rfl
      obtain ⟨ihdisj, ihiff, ihleast⟩ := ih (i + 1)
      refine ⟨?_, ?_, ?_⟩
      · rcases ihdisj with h1 | ⟨n, hn⟩
        · exact Or.inl (by rw [hval]; exact h1)
        · refine Or.inr ⟨n + 1, ?_⟩
          rw [hval, hn]
          congr 1
          omega
      · rw [hval, hcont]; exact ihiff
      · intro n h
        rw [hval] at h
        rcases ihdisj with h1 | ⟨n', hn'⟩
        · rw [h1] at h; exfalso; omega
        · have hnn : n = n' + 1 := by
            rw [hn'] at h
            omega
          subst hnn
          obtain ⟨hfound, hall⟩ := ihleast n' hn'
          refine ⟨?_, ?_⟩
          · simpa using hfound
          · intro j hj
            match j with
            | 0 => exact ⟨x, rfl, hfx⟩
            | j' + 1 =>
              obtain ⟨t, hget, hft⟩ := hall j' (by omega)
              exact ⟨t, by simpa using hget, hft⟩

/-- C10: `ContainsFunc f` is true exactly when `IndexFunc f` is not
`-1`, and a non-negative `IndexFunc` result `n` is the least index
whose element satisfies `f`: the element at `n` satisfies it and every
element before `n` fails it. -/
theorem containsfunc_iff_indexfunc (T : Type) (v : Slice T) (f : T → Bool) :
    (v.ContainsFunc f = true ↔ v.IndexFunc f ≠ -1)
    ∧ (∀ n : Nat, v.IndexFunc f = (n : Int) →
        (∃ t, v.zh.toList.get? n = some t ∧ f t = true)
        ∧ ∀ j, j < n → ∃ t, v.zh.toList.get? j = some t ∧ f t = false) := by
  obtain ⟨_, hiff, hleast⟩ := indexFuncFrom_spec f v.zh.toList 0
  constructor
  · rw [Slice.ContainsFunc, Slice.IndexFunc]
    constructor
    · intro hc heq
      rw [hiff.mp heq] at hc
      exact Bool.noConfusion hc
    · intro hne
      cases hb : containsFuncList f v.zh.toList with
      | false => exact absurd (hiff.mpr hb) hne
      | true => rfl
  · intro n h
    refine hleast n ?_
    rw [Slice.IndexFunc] at h
    rw [h]
    congr 1
    omega

/-- C10 witness at a concrete input: over `[1, 2, 3]` with the
predicate "equals 2", `IndexFunc` returns 1, the element at 1
satisfies the predicate and the element before it does not. -/
theorem containsfunc_iff_indexfunc_witness :
    (Slice.mk (some [1, 2, 3]) : Slice Nat).IndexFunc (fun t => t == 2) = ((1 : Nat) : Int)
    ∧ ((∃ t, ((GoSlice.toList (some [1, 2, 3] : GoSlice Nat)).get? 1 = some t
            ∧ (t == 2) = true))
        ∧ ∀ j, j < 1 → ∃ t, ((GoSlice.toList (some [1, 2, 3] : GoSlice Nat)).get? j = some t
            ∧ (t == 2) = false)) :=
  ⟨by decide,
   (containsfunc_iff_indexfunc Nat ⟨some [1, 2, 3]⟩ (fun t => t == 2)).2 1 (by decide)⟩

/-- Writing an array back over itself leaves the heap unchanged. -/
theorem set_arrAt_self (h : Heap T) (a : Nat) : h.set a (h.arrAt a) = h := by
  induction h generalizing a with
  | nil => rfl
  | cons x t ih =>
    cases a with
    | zero => rfl
    | succ a' =>
      show x :: t.set a' (Heap.arrAt (x :: t) (a' + 1)) = x :: t
      rw [show Heap.arrAt (x :: t) (a' + 1) = Heap.arrAt t a' from rfl, ih]

/-- Extending the heap with fresh arrays does not change existing
arrays. -/
theorem arrAt_append_lt (h h2 : Heap T) (a : Nat) (ha : a < h.length) :
    Heap.arrAt (h ++ h2) a = Heap.arrAt h a := by
  unfold Heap.arrAt
  rw [List.getD, List.getD, List.get?_append ha]

/-- The freshly allocated array sits at the old heap length. -/
theorem arrAt_concat (h : Heap T) (A : List T) :
    Heap.arrAt (h ++ [A]) h.length = A := by
  unfold Heap.arrAt
  rw [List.getD, List.get?_concat_length]
  rfl

/-- Writing into one array does not change a different array. -/
theorem arrAt_set_ne (h : Heap T) (b : Nat) (A : List T) (a : Nat) (hne : b ≠ a) :
    Heap.arrAt (h.set b A) a = Heap.arrAt h a := by
  unfold Heap.arrAt
  rw [List.getD, List.getD, List.get?_set_ne _ _ hne]

/-- What a slice header reads depends only on its backing array. -/
theorem readSlice_congr (h1 h2 : Heap T) (s : SliceRef)
    (hA : Heap.arrAt h1 s.arr = Heap.arrAt h2 s.arr) :
    readSlice h1 s = readSlice h2 s := by
  unfold readSlice
  rw [hA]

/-- A well-formed slice header reads exactly `len` elements. -/
theorem readSlice_length (h : Heap T) (v : SliceRef) (hwf : v.wf h) :
    (readSlice h v).length = v.len := by
  obtain ⟨h1, h2, h3⟩ := hwf
  unfold readSlice
  rw [List.length_take, List.length_drop]
  omega

/-- A zero-length slice header reads no elements. -/
theorem readSlice_len_zero (h : Heap T) (s : SliceRef) (hs : s.len = 0) :
    readSlice h s = [] := by
  unfold readSlice
  rw [hs]
  exact List.take_zero _

/-- Overwriting with no elements is the identity. -/
theorem listOverwrite_nil (l : List T) (pos : Nat) : listOverwrite l pos [] = l := by
  unfold listOverwrite
  simp [List.take_append_drop]

/-- Reading the freshly allocated copy at the end of the heap gives
back the copied elements. -/
theorem readSlice_concat_self (h : Heap T) (xs : List T) (n : Nat)
    (hn : xs.length = n) :
    readSlice (h ++ [xs]) ⟨h.length, 0, n, n⟩ = xs := by
  show ((Heap.arrAt (h ++ [xs]) h.length).drop 0).take n = xs
  rw [arrAt_concat, List.drop_zero, ← hn, List.take_length]

/-- Mutating through a zero-length header is a no-op (every index is
out of range). -/
theorem setElem_len_zero (h0 : Heap T) (r : SliceRef) (i : Nat) (x : T)
    (hr : r.len = 0) : setElem h0 r i x = h0 := by
  unfold setElem
  rw [if_neg (by omega)]

/-- Mutating through a header does not change other arrays. -/
theorem setElem_arrAt_ne (h0 : Heap T) (r : SliceRef) (i : Nat) (x : T) (a : Nat)
    (hne : r.arr ≠ a) : Heap.arrAt (setElem h0 r i x) a = Heap.arrAt h0 a := by
  unfold setElem
  split
  · exact arrAt_set_ne _ _ _ _ hne
  · rfl

/-- Mutating through a header does not change how many arrays the heap
holds. -/
theorem setElem_length (h0 : Heap T) (r : SliceRef) (i : Nat) (x : T) :
    (setElem h0 r i x).length = h0.length := by
  unfold setElem
  split
  · exact List.length_set _ _ _
  · rfl

/-- `AsSlice` either hands back an untouched heap and a zero-length,
zero-capacity header (empty backing slice) or allocates a fresh array
at the end of the heap holding a copy of the elements. -/
theorem asSlice_cases (h : Heap T) (v : SliceRef) (hwf : v.wf h) :
    (v.len = 0 ∧ SliceRef.AsSlice h v = (h, ⟨v.arr, v.off, 0, 0⟩))
    ∨ (v.len ≠ 0 ∧
        SliceRef.AsSlice h v = (h ++ [readSlice h v], ⟨h.length, 0, v.len, v.len⟩)) := by
  have hlen : (readSlice h v).length = v.len := readSlice_length h v hwf
  by_cases hv : v.len = 0
  · left
    refine ⟨hv, ?_⟩
    unfold SliceRef.AsSlice SliceRef.AppendTo goAppend SliceRef.truncZero
    rw [readSlice_len_zero h v hv]
    simp [listOverwrite_nil, set_arrAt_self]
  · right
    refine ⟨hv, ?_⟩
    unfold SliceRef.AsSlice SliceRef.AppendTo goAppend SliceRef.truncZero
    rw [if_neg (by simp [hlen]; omega)]
    rw [readSlice_len_zero h _ rfl]
    simp [hlen]

/-- `AsSlice` reads back exactly the elements of the backing slice. -/
theorem asSlice_reads_back (h : Heap T) (v : SliceRef) (hwf : v.wf h) :
    readSlice (SliceRef.AsSlice h v).1 (SliceRef.AsSlice h v).2 = readSlice h v := by
  rcases asSlice_cases h v hwf with ⟨hv, heq⟩ | ⟨hv, heq⟩ <;> rw [heq]
  · show readSlice h ⟨v.arr, v.off, 0, 0⟩ = readSlice h v
    rw [readSlice_len_zero h _ rfl, readSlice_len_zero h v hv]
  · show readSlice (h ++ [readSlice h v]) ⟨h.length, 0, v.len, v.len⟩ = readSlice h v
    exact readSlice_concat_self h _ _ (readSlice_length h v hwf)

/-- Mutating any element of the slice `AsSlice` returns neither touches
the original backing array nor removes it from the heap. -/
theorem setElem_asSlice_preserves (h : Heap T) (v : SliceRef) (hwf : v.wf h)
    (i : Nat) (x : T) :
    Heap.arrAt (setElem (SliceRef.AsSlice h v).1 (SliceRef.AsSlice h v).2 i x) v.arr
      = Heap.arrAt h v.arr
    ∧ v.arr < (setElem (SliceRef.AsSlice h v).1 (SliceRef.AsSlice h v).2 i x).length := by
  have harr : v.arr < h.length := hwf.1
  rcases asSlice_cases h v hwf with ⟨hv, heq⟩ | ⟨hv, heq⟩ <;> rw [heq]
  · show Heap.arrAt (setElem h ⟨v.arr, v.off, 0, 0⟩ i x) v.arr = Heap.arrAt h v.arr
      ∧ v.arr < (setElem h ⟨v.arr, v.off, 0, 0⟩ i x).length
    rw [setElem_len_zero h _ i x rfl]
    exact ⟨rfl, harr⟩
  · show Heap.arrAt (setElem (h ++ [readSlice h v]) ⟨h.length, 0, v.len, v.len⟩ i x) v.arr
        = Heap.arrAt h v.arr
      ∧ v.arr < (setElem (h ++ [readSlice h v]) ⟨h.length, 0, v.len, v.len⟩ i x).length
    constructor
    · rw [setElem_arrAt_ne _ _ i x v.arr (show h.length ≠ v.arr by omega)]
      exact arrAt_append_lt h _ v.arr harr
    · rw [setElem_length, List.length_append]
      simp only [List.length_singleton]
      omega

/-- C6: `AsSlice` returns the backing elements in order as an
independent copy: reading the result gives exactly the elements of the
backing slice, and mutating any element of the result changes neither
what the backing slice reads as nor what a later `AsSlice` call
returns. -/
theorem asSlice_independent_copy (T : Type) (h : Heap T) (v : SliceRef)
    (hwf : v.wf h) :
    readSlice (SliceRef.AsSlice h v).1 (SliceRef.AsSlice h v).2 = readSlice h v
    ∧ ∀ (i : Nat) (x : T),
        readSlice (setElem (SliceRef.AsSlice h v).1 (SliceRef.AsSlice h v).2 i x) v
          = readSlice h v
        ∧ readSlice
            (SliceRef.AsSlice
              (setElem (SliceRef.AsSlice h v).1 (SliceRef.AsSlice h v).2 i x) v).1
            (SliceRef.AsSlice
              (setElem (SliceRef.AsSlice h v).1 (SliceRef.AsSlice h v).2 i x) v).2
          = readSlice h v := by
  refine ⟨asSlice_reads_back h v hwf, fun i x => ?_⟩
  obtain ⟨hA, hL⟩ := setElem_asSlice_preserves h v hwf i x
  have hread : readSlice (setElem (SliceRef.AsSlice h v).1 (SliceRef.AsSlice h v).2 i x) v
      = readSlice h v := readSlice_congr _ _ v hA
  have hwf2 : v.wf (setElem (SliceRef.AsSlice h v).1 (SliceRef.AsSlice h v).2 i x) :=
    ⟨hL, hwf.2.1, by rw [hA]; exact hwf.2.2⟩
  exact ⟨hread, by rw [asSlice_reads_back _ v hwf2, hread]⟩

/-- C6 witness at a concrete input. -/
theorem asSlice_independent_copy_witness :
    SliceRef.wf ([[1, 2, 3]] : Heap Nat) ⟨0, 0, 3, 3⟩
    ∧ readSlice (SliceRef.AsSlice ([[1, 2, 3]] : Heap Nat) ⟨0, 0, 3, 3⟩).1
        (SliceRef.AsSlice ([[1, 2, 3]] : Heap Nat) ⟨0, 0, 3, 3⟩).2
      = readSlice ([[1, 2, 3]] : Heap Nat) ⟨0, 0, 3, 3⟩ :=
  ⟨by decide, (asSlice_independent_copy Nat [[1, 2, 3]] ⟨0, 0, 3, 3⟩ (by decide)).1⟩

end Views






